import Mathlib

/-!
Verification of the graph_gen Erdős–Rényi graph generator (src/lib.rs).

The Rust source is shallowly embedded:
* `f64` probabilities become `ℚ`; Rust's `f64::round` (half away from zero)
  becomes `f64round`, and the saturating `as usize` cast becomes `Int.toNat`.
* `usize`/`u128` quantities become `Nat`; `isize` vertex ids become `Int`,
  with Rust's truncating `/` on `isize` rendered as `Int.tdiv`.
* The thread RNG is externalized: a uniform draw in `[0, bound)` is modelled
  by reducing a caller-supplied natural number modulo `bound`.
* `HashMap<Edge, isize>` becomes an association list `List (Edge × Int)`
  whose keys are kept unique by the very insertion discipline of the code.
* Rust panics (e.g. `Uniform::new(0, 0)`) become `Option.none`, and the
  possibly non-terminating sampling loop takes the finite list of RNG draws
  as fuel, returning `none` when the draws run out.
-/

/-- The configuration of an Erdős–Rényi G(n, p) model (struct `ErModel`). -/
structure ErModel where
  n : Nat
  p : ℚ
  digraph : Bool
  self_loops : Bool
deriving DecidableEq

/-- Rust's `f64::round`: round half away from zero (modelled on `ℚ`). -/
def f64round (q : ℚ) : Int :=
  if q < 0 then -⌊(1 / 2 : ℚ) - q⌋ else ⌊q + 1 / 2⌋

/-- `ErModel::new(n, p)`: no validation whatsoever is performed. -/
def ErModel.new (n : Nat) (p : ℚ) : ErModel :=
  { n := n, p := p, self_loops := false, digraph := false }

/-- `ErModel::digraph(self)`: builder step turning on the digraph flag. -/
def ErModel.as_digraph (m : ErModel) : ErModel :=
  { n := m.n, p := m.p, self_loops := m.self_loops, digraph := true }

/-- `ErModel::with_self_loops(self)`: builder step allowing self loops. -/
def ErModel.with_self_loops (m : ErModel) : ErModel :=
  { n := m.n, p := m.p, self_loops := true, digraph := m.digraph }

/-- `ErModel::nb_possible_edges`: size of the candidate edge space.
`sources = n`, `dests = n` (self loops allowed) or `n - 1`;
directed: `sources * dests`, undirected: `(sources * dests) / 2`. -/
def ErModel.nb_possible_edges (m : ErModel) : Nat :=
  let sources := m.n
  let dests := if m.self_loops then m.n else m.n - 1
  if m.digraph then sources * dests else (sources * dests) / 2

/-- `ErModel::nb_edges_to_pick`: `(p * nb_possible_edges as f64).round() as usize`. -/
def ErModel.nb_edges_to_pick (m : ErModel) : Nat :=
  (f64round (m.p * (m.nb_possible_edges : ℚ))).toNat

/-- A vertex is just a typesafe integer id (struct `Vertex`, id `isize`). -/
structure Vertex where
  id : Int
deriving DecidableEq

/-- An edge connects two vertices (struct `Edge`). -/
structure Edge where
  src : Vertex
  dst : Vertex
deriving DecidableEq

/-- `Edge::is_self_loop`: true iff the edge is self looping. -/
def Edge.is_self_loop (e : Edge) : Bool :=
  decide (e.src = e.dst)

/-- `Edge::rev`: the edge with its endpoints swapped. -/
def Edge.rev (e : Edge) : Edge :=
  { src := e.dst, dst := e.src }

/-- A generated graph (struct `Graph`): model, vertex count, edge→weight map. -/
structure Graph where
  model : ErModel
  n : Nat
  list : List (Edge × Int)
deriving DecidableEq

/-- `HashMap::contains_key` on the association-list rendering of `g.list`. -/
def containsKey (l : List (Edge × Int)) (e : Edge) : Bool :=
  l.any (fun pr => decide (pr.1 = e))

/-- The key set of the edge map, as a list. -/
def keysOf (l : List (Edge × Int)) : List Edge :=
  l.map Prod.fst

/-- `Graph::pluck_random_weights(&mut self, from: &[isize])`.
`Uniform::new(0, from.len())` panics when the slice is empty (`none` here);
otherwise every stored weight is replaced by `from[draw % len]`, one
uniform draw per edge (`draws i` is the raw value behind the i-th draw). -/
def Graph.pluck_random_weights (g : Graph) (draws : Nat → Nat) (cands : List Int) :
    Option Graph :=
  if h : cands.length = 0 then none
  else some
    { model := g.model, n := g.n,
      list := g.list.enum.map (fun pr =>
        (pr.2.1, cands.get ⟨draws pr.1 % cands.length,
          Nat.mod_lt _ (Nat.pos_of_ne_zero h)⟩)) }

/-- A max-2-SAT view of a graph (struct `Max2SatGraph`). -/
structure Max2SatGraph where
  g : Graph
deriving DecidableEq

/-- `Max2SatGraph::new`. -/
def Max2SatGraph.new (g : Graph) : Max2SatGraph :=
  { g := g }

/-- `Max2SatGraph::literal`: ids above `n / 2` map to the negated literal
`-(id / 2)`, the rest are positive literals (isize division = `Int.tdiv`). -/
def Max2SatGraph.literal (s : Max2SatGraph) (v : Vertex) : Int :=
  let v_id := v.id
  if v_id > Int.tdiv (s.g.n : Int) 2 then -(Int.tdiv v_id 2) else v_id

/-- The graph generator (struct `ErGenerator`): holds the model; the RNG and
the `Uniform` distribution are externalized into the draw stream. -/
structure ErGenerator where
  model : ErModel
deriving DecidableEq

/-- `ErGenerator::new`: `Uniform::new(0, n*n)` panics (here `none`) when the
range `[0, n*n)` is empty, i.e. when `n = 0`. -/
def ErGenerator.new (m : ErModel) : Option ErGenerator :=
  if m.n * m.n = 0 then none else some { model := m }

/-- `ErModel::generator`. -/
def ErModel.generator (m : ErModel) : Option ErGenerator :=
  ErGenerator.new m

/-- `ErGenerator::next_edge`: one uniform `number` in `[0, n²)` becomes the
1-based edge `(number / n + 1, number % n + 1)`. -/
def ErGenerator.next_edge (n : Nat) (number : Nat) : Edge :=
  let src : Int := (number / n : Nat)
  let dst : Int := (number % n : Nat)
  { src := { id := src + 1 }, dst := { id := dst + 1 } }

/-- The sampling loop of `ErGenerator::gen` (`while g.list.len() < nb_edges`):
draw, reject self loops when disallowed, reject when the edge or its reverse
is already a key, otherwise insert with weight 1. The list of raw draws is
the fuel; `none` models the loop still running when the draws are spent. -/
def genLoop (m : ErModel) (target : Nat) :
    List Nat → List (Edge × Int) → Option (List (Edge × Int))
  | [], acc => if acc.length < target then none else some acc
  | x :: rest, acc =>
    if acc.length < target then
      let edge := ErGenerator.next_edge m.n (x % (m.n * m.n))
      if edge.is_self_loop && !m.self_loops then
        genLoop m target rest acc
      else if containsKey acc edge || containsKey acc edge.rev then
        genLoop m target rest acc
      else
        genLoop m target rest ((edge, (1 : Int)) :: acc)
    else some acc

/-- `ErGenerator::gen`: run the sampling loop from the empty edge map until
`nb_edges_to_pick` edges have been accepted. -/
def ErGenerator.gen (gener : ErGenerator) (draws : List Nat) : Option Graph :=
  (genLoop gener.model gener.model.nb_edges_to_pick draws []).map
    (fun l => { model := gener.model, n := gener.model.n, list := l })

/-! ## Basic lemmas about the embedding -/

theorem containsKey_iff (l : List (Edge × Int)) (e : Edge) :
    containsKey l e = true ↔ e ∈ keysOf l := by
  simp [containsKey, keysOf, List.any_eq_true, List.mem_map]

theorem containsKey_false_iff (l : List (Edge × Int)) (e : Edge) :
    containsKey l e = false ↔ e ∉ keysOf l := by
  rw [← Bool.not_eq_true, not_iff_not]
  exact containsKey_iff l e

/-- Every accepted edge count is reached exactly: if the loop returns, the
result has exactly `target` entries (starting from any prefix not above it). -/
theorem genLoop_some_length (m : ErModel) (t : Nat) :
    ∀ draws acc l, acc.length ≤ t → genLoop m t draws acc = some l →
      l.length = t := by
  intro draws
  induction draws with
  | nil =>
    intro acc l hle h
    simp only [genLoop] at h
    split at h
    · simp at h
    · cases h; omega
  | cons x rest ih =>
    intro acc l hle h
    simp only [genLoop] at h
    split at h
    · split at h
      · exact ih acc l hle h
      · split at h
        · exact ih acc l hle h
        · refine ih _ l ?_ h
          simp only [List.length_cons]
          omega
    · cases h; omega

/-- Generic preservation: any property of the accumulated association list
that survives inserting a fresh candidate edge (one whose key and reversed
key are absent) holds for the final list returned by the sampling loop. -/
theorem genLoop_inv (m : ErModel) (t : Nat) (P : List (Edge × Int) → Prop)
    (hstep : ∀ acc x,
      P acc →
      containsKey acc (ErGenerator.next_edge m.n (x % (m.n * m.n))) = false →
      containsKey acc (ErGenerator.next_edge m.n (x % (m.n * m.n))).rev = false →
      P ((ErGenerator.next_edge m.n (x % (m.n * m.n)), (1 : Int)) :: acc)) :
    ∀ draws acc l, genLoop m t draws acc = some l → P acc → P l := by
  intro draws
  induction draws with
  | nil =>
    intro acc l h hP
    simp only [genLoop] at h
    split at h
    · simp at h
    · cases h; exact hP
  | cons x rest ih =>
    intro acc l h hP
    simp only [genLoop] at h
    split at h
    · split at h
      · exact ih acc l h hP
      · split at h
        · exact ih acc l h hP
        · rename_i hfresh
          rw [Bool.or_eq_true, not_or] at hfresh
          refine ih _ l h (hstep acc x hP ?_ ?_)
          · simpa using hfresh.1
          · simpa using hfresh.2
    · cases h; exact hP

theorem Edge.rev_rev (e : Edge) : e.rev.rev = e := rfl

/-- Keys stay duplicate-free across the sampling loop. -/
theorem genLoop_keys_nodup (m : ErModel) (t : Nat) (draws : List Nat)
    (acc l : List (Edge × Int)) (h : genLoop m t draws acc = some l)
    (hacc : (keysOf acc).Nodup) : (keysOf l).Nodup := by
  refine genLoop_inv m t (fun a => (keysOf a).Nodup) ?_ draws acc l h hacc
  intro a x hP h1 _h2
  have hnot : ErGenerator.next_edge m.n (x % (m.n * m.n)) ∉ keysOf a :=
    (containsKey_false_iff _ _).mp h1
  rw [keysOf, List.map_cons, List.nodup_cons]
  exact ⟨hnot, hP⟩

/-- Across the sampling loop, a key and its distinct reverse never coexist. -/
theorem genLoop_keys_norev (m : ErModel) (t : Nat) (draws : List Nat)
    (acc l : List (Edge × Int)) (h : genLoop m t draws acc = some l)
    (hacc : ∀ e ∈ keysOf acc, e.rev ∈ keysOf acc → e.rev = e) :
    ∀ e ∈ keysOf l, e.rev ∈ keysOf l → e.rev = e := by
  refine genLoop_inv m t
    (fun a => ∀ e ∈ keysOf a, e.rev ∈ keysOf a → e.rev = e) ?_ draws acc l h hacc
  intro a x hP h1 h2
  have hnot : ErGenerator.next_edge m.n (x % (m.n * m.n)) ∉ keysOf a :=
    (containsKey_false_iff _ _).mp h1
  have hnotrev : (ErGenerator.next_edge m.n (x % (m.n * m.n))).rev ∉ keysOf a :=
    (containsKey_false_iff _ _).mp h2
  intro e he hrev
  simp only [keysOf, List.map_cons, List.mem_cons] at he hrev
  rcases he with he | he
  · rcases hrev with hr | hr
    · rw [he] at hr ⊢; exact hr
    · rw [he] at hr; exact absurd hr hnotrev
  · rcases hrev with hr | hr
    · exfalso
      have : e = (ErGenerator.next_edge m.n (x % (m.n * m.n))).rev := by
        rw [← hr, Edge.rev_rev]
      rw [this] at he
      exact hnotrev he
    · exact hP e he hr

/-- Every edge drawn by `next_edge` from a reduced draw has both endpoints
in `[1, n]`. -/
theorem next_edge_bounds (n : Nat) (hn : 1 ≤ n) (x : Nat) (hx : x < n * n) :
    1 ≤ (ErGenerator.next_edge n x).src.id ∧
      (ErGenerator.next_edge n x).src.id ≤ (n : Int) ∧
      1 ≤ (ErGenerator.next_edge n x).dst.id ∧
      (ErGenerator.next_edge n x).dst.id ≤ (n : Int) := by
  have hdiv : x / n < n := by
    rw [Nat.div_lt_iff_lt_mul (by omega)]
    exact hx
  have hmod : x % n < n := Nat.mod_lt _ (by omega)
  obtain ⟨a, ha⟩ : ∃ a, x / n = a := ⟨_, rfl⟩
  obtain ⟨b, hb⟩ : ∃ b, x % n = b := ⟨_, rfl⟩
  rw [ha] at hdiv
  rw [hb] at hmod
  simp only [ErGenerator.next_edge, ha, hb]
  refine ⟨by omega, by omega, by omega, by omega⟩

/-- Every key of a loop result has both endpoints in `[1, n]`. -/
theorem genLoop_keys_range (m : ErModel) (t : Nat) (hn : 1 ≤ m.n)
    (draws : List Nat) (acc l : List (Edge × Int))
    (h : genLoop m t draws acc = some l)
    (hacc : ∀ e ∈ keysOf acc,
      1 ≤ e.src.id ∧ e.src.id ≤ (m.n : Int) ∧ 1 ≤ e.dst.id ∧ e.dst.id ≤ (m.n : Int)) :
    ∀ e ∈ keysOf l,
      1 ≤ e.src.id ∧ e.src.id ≤ (m.n : Int) ∧ 1 ≤ e.dst.id ∧ e.dst.id ≤ (m.n : Int) := by
  refine genLoop_inv m t (fun a => ∀ e ∈ keysOf a,
    1 ≤ e.src.id ∧ e.src.id ≤ (m.n : Int) ∧ 1 ≤ e.dst.id ∧ e.dst.id ≤ (m.n : Int))
    ?_ draws acc l h hacc
  intro a x hP _h1 _h2
  intro e he
  simp only [keysOf, List.map_cons, List.mem_cons] at he
  rcases he with he | he
  · rw [he]
    exact next_edge_bounds m.n hn _ (Nat.mod_lt _ (by positivity))
  · exact hP e he

/-! ## Claims -/

/-- C3: `nb_possible_edges` is `sources × dests` for directed models and the
truncating `(sources × dests) / 2` for undirected ones, with
`sources = n` and `dests = n` (self loops) or `n − 1`; the no-self-loop
undirected division is exact, while the odd-`n` self-loop undirected case
truncates `n² / 2`. -/
theorem nb_possible_edges_characterization (m : ErModel) (hn : 1 ≤ m.n) :
    (m.digraph = true →
      m.nb_possible_edges = m.n * (if m.self_loops then m.n else m.n - 1)) ∧
    (m.digraph = false →
      m.nb_possible_edges = m.n * (if m.self_loops then m.n else m.n - 1) / 2) ∧
    (m.digraph = false → m.self_loops = false →
      2 * m.nb_possible_edges = m.n * (m.n - 1)) ∧
    (m.digraph = false → m.self_loops = true → Odd m.n →
      2 * m.nb_possible_edges + 1 = m.n * m.n) := by
  refine ⟨?_, ?_, ?_, ?_⟩
  · intro hd; simp [ErModel.nb_possible_edges, hd]
  · intro hd; simp [ErModel.nb_possible_edges, hd]
  · intro hd hs
    simp [ErModel.nb_possible_edges, hd, hs]
    have heven : Even (m.n * (m.n - 1)) := by
      rcases Nat.even_or_odd m.n with he | ho
      · exact he.mul_right _
      · refine Even.mul_left ?_ _
        rcases ho with ⟨k, hk⟩
        exact ⟨k, by omega⟩
    rcases heven with ⟨k, hk⟩
    omega
  · intro hd hs hodd
    simp [ErModel.nb_possible_edges, hd, hs]
    have hodd2 : Odd (m.n * m.n) := hodd.mul hodd
    rcases hodd2 with ⟨k, hk⟩
    omega

/-- Witness for C3 at the undirected, self-loop model with `n = 3`. -/
theorem nb_possible_edges_characterization_witness :
    ((ErModel.new 3 1).with_self_loops.digraph = true →
      (ErModel.new 3 1).with_self_loops.nb_possible_edges =
        (ErModel.new 3 1).with_self_loops.n *
          (if (ErModel.new 3 1).with_self_loops.self_loops then
            (ErModel.new 3 1).with_self_loops.n
          else (ErModel.new 3 1).with_self_loops.n - 1)) ∧
    ((ErModel.new 3 1).with_self_loops.digraph = false →
      (ErModel.new 3 1).with_self_loops.nb_possible_edges =
        (ErModel.new 3 1).with_self_loops.n *
          (if (ErModel.new 3 1).with_self_loops.self_loops then
            (ErModel.new 3 1).with_self_loops.n
          else (ErModel.new 3 1).with_self_loops.n - 1) / 2) ∧
    ((ErModel.new 3 1).with_self_loops.digraph = false →
      (ErModel.new 3 1).with_self_loops.self_loops = false →
      2 * (ErModel.new 3 1).with_self_loops.nb_possible_edges =
        (ErModel.new 3 1).with_self_loops.n * ((ErModel.new 3 1).with_self_loops.n - 1)) ∧
    ((ErModel.new 3 1).with_self_loops.digraph = false →
      (ErModel.new 3 1).with_self_loops.self_loops = true →
      Odd (ErModel.new 3 1).with_self_loops.n →
      2 * (ErModel.new 3 1).with_self_loops.nb_possible_edges + 1 =
        (ErModel.new 3 1).with_self_loops.n * (ErModel.new 3 1).with_self_loops.n) :=
  nb_possible_edges_characterization ((ErModel.new 3 1).with_self_loops)
    (by simp [ErModel.new, ErModel.with_self_loops])

/-- C4: the max-2-SAT literal mapping sends a vertex id in `[1, n]` to the
negated literal `-(id / 2)` (truncating division) when `id > n / 2`, and to
the positive literal `id` otherwise; in particular for `n = 4` the vertices
1, 2, 3, 4 map to the literals 1, 2, -1, -2. -/
theorem max2sat_literal_mapping (s : Max2SatGraph) (v : Vertex)
    (h1 : 1 ≤ v.id) (h2 : v.id ≤ (s.g.n : Int)) :
    (v.id > Int.tdiv (s.g.n : Int) 2 → s.literal v = -(Int.tdiv v.id 2)) ∧
    (v.id ≤ Int.tdiv (s.g.n : Int) 2 → s.literal v = v.id) ∧
    (s.g.n = 4 →
      s.literal { id := 1 } = 1 ∧ s.literal { id := 2 } = 2 ∧
      s.literal { id := 3 } = -1 ∧ s.literal { id := 4 } = -2) := by
  refine ⟨?_, ?_, ?_⟩
  · intro hgt
    simp only [Max2SatGraph.literal]
    rw [if_pos hgt]
  · intro hle
    simp only [Max2SatGraph.literal]
    rw [if_neg (not_lt.mpr hle)]
  · intro h4
    simp only [Max2SatGraph.literal, h4]
    decide

/-- Witness for C4: the boundary vertex 3 of a 4-vertex 2-SAT view. -/
theorem max2sat_literal_mapping_witness :
    (Vertex.id { id := 3 } >
        Int.tdiv ((Max2SatGraph.new { model := ErModel.new 4 1, n := 4, list := [] }).g.n : Int) 2 →
      (Max2SatGraph.new { model := ErModel.new 4 1, n := 4, list := [] }).literal { id := 3 } =
        -(Int.tdiv (Vertex.id { id := 3 }) 2)) ∧
    (Vertex.id { id := 3 } ≤
        Int.tdiv ((Max2SatGraph.new { model := ErModel.new 4 1, n := 4, list := [] }).g.n : Int) 2 →
      (Max2SatGraph.new { model := ErModel.new 4 1, n := 4, list := [] }).literal { id := 3 } =
        Vertex.id { id := 3 }) ∧
    ((Max2SatGraph.new { model := ErModel.new 4 1, n := 4, list := [] }).g.n = 4 →
      (Max2SatGraph.new { model := ErModel.new 4 1, n := 4, list := [] }).literal { id := 1 } = 1 ∧
      (Max2SatGraph.new { model := ErModel.new 4 1, n := 4, list := [] }).literal { id := 2 } = 2 ∧
      (Max2SatGraph.new { model := ErModel.new 4 1, n := 4, list := [] }).literal { id := 3 } = -1 ∧
      (Max2SatGraph.new { model := ErModel.new 4 1, n := 4, list := [] }).literal { id := 4 } = -2) :=
  max2sat_literal_mapping
    (Max2SatGraph.new { model := ErModel.new 4 1, n := 4, list := [] }) { id := 3 }
    (by decide) (by simp [Max2SatGraph.new])

/-- C1: for a valid model, whenever `gen` returns, the produced graph holds
exactly `nb_edges_to_pick = round(p * nb_possible_edges)` distinct edges. -/
theorem gen_exact_edge_count (m : ErModel) (hn : 1 ≤ m.n) (hp0 : 0 ≤ m.p)
    (hp1 : m.p ≤ 1) (hsl : m.self_loops = false → 2 ≤ m.n)
    (draws : List Nat) (g : Graph)
    (hg : ErGenerator.gen { model := m } draws = some g) :
    g.list.length = m.nb_edges_to_pick ∧ (keysOf g.list).Nodup := by
  simp only [ErGenerator.gen, Option.map_eq_some'] at hg
  obtain ⟨l, hl, hgl⟩ := hg
  have hlen : l.length = m.nb_edges_to_pick :=
    genLoop_some_length m m.nb_edges_to_pick draws [] l (Nat.zero_le _) hl
  have hnd : (keysOf l).Nodup :=
    genLoop_keys_nodup m m.nb_edges_to_pick draws [] l hl (by simp [keysOf])
  rw [← hgl]
  exact ⟨hlen, hnd⟩

/-- Witness for C1: `G(2, 1)` undirected without self loops, one draw. -/
theorem gen_exact_edge_count_witness :
    (⟨ErModel.new 2 1, 2, [(⟨⟨1⟩, ⟨2⟩⟩, (1 : Int))]⟩ : Graph).list.length =
      (ErModel.new 2 1).nb_edges_to_pick ∧
    (keysOf (⟨ErModel.new 2 1, 2, [(⟨⟨1⟩, ⟨2⟩⟩, (1 : Int))]⟩ : Graph).list).Nodup :=
  gen_exact_edge_count (ErModel.new 2 1) (by norm_num [ErModel.new])
    (by norm_num [ErModel.new]) (by norm_num [ErModel.new])
    (fun _ => by norm_num [ErModel.new]) [1] _ (by
      have hcount : (ErModel.new 2 1).nb_edges_to_pick = 1 := by
        norm_num [ErModel.nb_edges_to_pick, ErModel.nb_possible_edges, f64round,
          ErModel.new]
      simp only [ErModel.new] at hcount
      simp [ErGenerator.gen, hcount, genLoop, ErGenerator.next_edge, containsKey,
        Edge.is_self_loop, ErModel.new, Edge.rev])

/-- C10: no generated graph, directed or not, ever holds both an edge
`(a, b)` and its reverse `(b, a)` for distinct `a`, `b`: the sampler rejects
a candidate whenever the candidate or its reverse is already present,
regardless of the digraph flag. -/
theorem gen_never_both_directions (m : ErModel) (draws : List Nat) (g : Graph)
    (hg : ErGenerator.gen { model := m } draws = some g) (a b : Vertex)
    (hab : a ≠ b) (h1 : (⟨a, b⟩ : Edge) ∈ keysOf g.list) :
    (⟨b, a⟩ : Edge) ∉ keysOf g.list := by
  simp only [ErGenerator.gen, Option.map_eq_some'] at hg
  obtain ⟨l, hl, hgl⟩ := hg
  have hno := genLoop_keys_norev m m.nb_edges_to_pick draws [] l hl (by simp [keysOf])
  rw [← hgl] at h1 ⊢
  intro h2
  have hr : (⟨a, b⟩ : Edge).rev = ⟨b, a⟩ := rfl
  have heq : (⟨a, b⟩ : Edge).rev = ⟨a, b⟩ := hno _ h1 (by rw [hr]; exact h2)
  rw [hr] at heq
  exact hab (congrArg Edge.src heq).symm

/-- Witness for C10 on a generated one-edge graph over 2 vertices. -/
theorem gen_never_both_directions_witness :
    (⟨⟨2⟩, ⟨1⟩⟩ : Edge) ∉
      keysOf (⟨ErModel.new 2 1, 2, [(⟨⟨1⟩, ⟨2⟩⟩, (1 : Int))]⟩ : Graph).list :=
  gen_never_both_directions (ErModel.new 2 1) [1]
    ⟨ErModel.new 2 1, 2, [(⟨⟨1⟩, ⟨2⟩⟩, (1 : Int))]⟩
    (by
      have hcount : (ErModel.new 2 1).nb_edges_to_pick = 1 := by
        norm_num [ErModel.nb_edges_to_pick, ErModel.nb_possible_edges, f64round,
          ErModel.new]
      simp only [ErModel.new] at hcount
      simp [ErGenerator.gen, hcount, genLoop, ErGenerator.next_edge, containsKey,
        Edge.is_self_loop, ErModel.new, Edge.rev])
    ⟨1⟩ ⟨2⟩ (by decide) (by simp [keysOf])

/-- C8: a draw `x < n²` yields the candidate edge
`(x / n + 1, x % n + 1)`, whose endpoints lie in `[1, n]`; consequently every
edge of any generated graph has both endpoints in `[1, n]`. -/
theorem next_edge_formula_and_range (m : ErModel) (hn : 1 ≤ m.n) (x : Nat)
    (hx : x < m.n * m.n) :
    ErGenerator.next_edge m.n x =
      ⟨⟨((x / m.n : Nat) : Int) + 1⟩, ⟨((x % m.n : Nat) : Int) + 1⟩⟩ ∧
    (1 ≤ (ErGenerator.next_edge m.n x).src.id ∧
      (ErGenerator.next_edge m.n x).src.id ≤ (m.n : Int)) ∧
    (1 ≤ (ErGenerator.next_edge m.n x).dst.id ∧
      (ErGenerator.next_edge m.n x).dst.id ≤ (m.n : Int)) ∧
    (∀ draws g, ErGenerator.gen { model := m } draws = some g →
      ∀ e ∈ keysOf g.list, 1 ≤ e.src.id ∧ e.src.id ≤ (m.n : Int) ∧
        1 ≤ e.dst.id ∧ e.dst.id ≤ (m.n : Int)) := by
  obtain ⟨hb1, hb2, hb3, hb4⟩ := next_edge_bounds m.n hn x hx
  refine ⟨rfl, ⟨hb1, hb2⟩, ⟨hb3, hb4⟩, ?_⟩
  intro draws g hg
  simp only [ErGenerator.gen, Option.map_eq_some'] at hg
  obtain ⟨l, hl, hgl⟩ := hg
  rw [← hgl]
  exact genLoop_keys_range m m.nb_edges_to_pick hn draws [] l hl (by simp [keysOf])

/-- Witness for C8 at `n = 2`, `x = 1`. -/
theorem next_edge_formula_and_range_witness :
    ErGenerator.next_edge (ErModel.new 2 1).n 1 =
      ⟨⟨((1 / (ErModel.new 2 1).n : Nat) : Int) + 1⟩,
        ⟨((1 % (ErModel.new 2 1).n : Nat) : Int) + 1⟩⟩ ∧
    (1 ≤ (ErGenerator.next_edge (ErModel.new 2 1).n 1).src.id ∧
      (ErGenerator.next_edge (ErModel.new 2 1).n 1).src.id ≤ ((ErModel.new 2 1).n : Int)) ∧
    (1 ≤ (ErGenerator.next_edge (ErModel.new 2 1).n 1).dst.id ∧
      (ErGenerator.next_edge (ErModel.new 2 1).n 1).dst.id ≤ ((ErModel.new 2 1).n : Int)) ∧
    (∀ draws g, ErGenerator.gen { model := ErModel.new 2 1 } draws = some g →
      ∀ e ∈ keysOf g.list, 1 ≤ e.src.id ∧ e.src.id ≤ ((ErModel.new 2 1).n : Int) ∧
        1 ≤ e.dst.id ∧ e.dst.id ≤ ((ErModel.new 2 1).n : Int)) :=
  next_edge_formula_and_range (ErModel.new 2 1) (by decide) 1 (by decide)

/-- C2 (amended): in the sampling loop a drawn candidate is rejected — the
accumulated edge map passed on unchanged — exactly when it is a self loop
while self loops are disallowed, or the identical edge is already present,
or its reverse is already present; the reverse test applies to directed
models just as to undirected ones (no dependence on the digraph flag). -/
theorem gen_rejection_characterization (m : ErModel) (t x : Nat)
    (rest : List Nat) (acc : List (Edge × Int)) (h : acc.length < t) :
    genLoop m t (x :: rest) acc =
      (if ((ErGenerator.next_edge m.n (x % (m.n * m.n))).is_self_loop
            && !m.self_loops)
          || containsKey acc (ErGenerator.next_edge m.n (x % (m.n * m.n)))
          || containsKey acc (ErGenerator.next_edge m.n (x % (m.n * m.n))).rev
       then genLoop m t rest acc
       else genLoop m t rest
        ((ErGenerator.next_edge m.n (x % (m.n * m.n)), (1 : Int)) :: acc)) := by
  simp only [genLoop, if_pos h]
  cases hA : ((ErGenerator.next_edge m.n (x % (m.n * m.n))).is_self_loop
      && !m.self_loops)
  · simp [hA]
  · simp [hA]

/-- Witness for C2 (amended): one step with room left in the target. -/
theorem gen_rejection_characterization_witness :
    genLoop (ErModel.new 2 1) 2 (1 :: []) [] =
      (if ((ErGenerator.next_edge (ErModel.new 2 1).n
              (1 % ((ErModel.new 2 1).n * (ErModel.new 2 1).n))).is_self_loop
            && !(ErModel.new 2 1).self_loops)
          || containsKey []
              (ErGenerator.next_edge (ErModel.new 2 1).n
                (1 % ((ErModel.new 2 1).n * (ErModel.new 2 1).n)))
          || containsKey []
              (ErGenerator.next_edge (ErModel.new 2 1).n
                (1 % ((ErModel.new 2 1).n * (ErModel.new 2 1).n))).rev
       then genLoop (ErModel.new 2 1) 2 [] []
       else genLoop (ErModel.new 2 1) 2 []
        [(ErGenerator.next_edge (ErModel.new 2 1).n
            (1 % ((ErModel.new 2 1).n * (ErModel.new 2 1).n)), (1 : Int))]) :=
  gen_rejection_characterization (ErModel.new 2 1) 2 1 [] [] (by decide)

/-- C2 (counterexample): with a directed model over 2 vertices and the edge
`(1, 2)` accepted, the next candidate `(2, 1)` — not a self loop, not itself
present — is nonetheless rejected, so the loop runs out of draws (`none`);
had it been accepted the loop would have returned the two-edge graph. -/
theorem gen_directed_reverse_rejected_counterexample :
    (ErModel.new 2 1).as_digraph.digraph = true ∧
    ErGenerator.next_edge (ErModel.new 2 1).as_digraph.n
        (2 % ((ErModel.new 2 1).as_digraph.n * (ErModel.new 2 1).as_digraph.n)) =
      ⟨⟨2⟩, ⟨1⟩⟩ ∧
    (⟨⟨2⟩, ⟨1⟩⟩ : Edge).is_self_loop = false ∧
    containsKey [(⟨⟨1⟩, ⟨2⟩⟩, (1 : Int))] ⟨⟨2⟩, ⟨1⟩⟩ = false ∧
    genLoop (ErModel.new 2 1).as_digraph 2 [2] [(⟨⟨1⟩, ⟨2⟩⟩, (1 : Int))] = none ∧
    genLoop (ErModel.new 2 1).as_digraph 2 []
        [(⟨⟨2⟩, ⟨1⟩⟩, (1 : Int)), (⟨⟨1⟩, ⟨2⟩⟩, (1 : Int))] =
      some [(⟨⟨2⟩, ⟨1⟩⟩, (1 : Int)), (⟨⟨1⟩, ⟨2⟩⟩, (1 : Int))] := by
  refine ⟨rfl, rfl, rfl, rfl, ?_, rfl⟩
  simp [genLoop, ErGenerator.next_edge, containsKey, Edge.is_self_loop,
    ErModel.new, ErModel.as_digraph, Edge.rev]

/-- C5 (code behavior): `ErModel::new` performs no validation at all.
`n = 0` still builds a model and only fails later, when
`ErGenerator::new` panics building `Uniform::new(0, 0)`; `n = 1` without
self loops builds a model, a generator, and even samples successfully
(an empty graph); `p = 2` outside `[0, 1]` also builds a model. -/
theorem model_construction_performs_no_validation :
    ErModel.new 0 (1 / 2) = ⟨0, 1 / 2, false, false⟩ ∧
    ErGenerator.new (ErModel.new 0 (1 / 2)) = none ∧
    ErModel.new 1 (1 / 2) = ⟨1, 1 / 2, false, false⟩ ∧
    (ErModel.new 1 (1 / 2)).self_loops = false ∧
    ErGenerator.new (ErModel.new 1 (1 / 2)) = some ⟨ErModel.new 1 (1 / 2)⟩ ∧
    ErGenerator.gen ⟨ErModel.new 1 (1 / 2)⟩ [] =
      some ⟨ErModel.new 1 (1 / 2), 1, []⟩ ∧
    ErModel.new 3 2 = ⟨3, 2, false, false⟩ := by
  refine ⟨rfl, ?_, rfl, rfl, ?_, ?_, rfl⟩
  · simp [ErGenerator.new, ErModel.new]
  · simp [ErGenerator.new, ErModel.new]
  · have hcount : ∀ pq : ℚ, (⟨1, pq, false, false⟩ : ErModel).nb_edges_to_pick = 0 := by
      intro pq
      norm_num [ErModel.nb_edges_to_pick, ErModel.nb_possible_edges, f64round]
    simp [ErGenerator.gen, genLoop, hcount, ErModel.new]

/-- Keys are untouched when the enum-indexed rewrite keeps each entry key. -/
theorem keysOf_enum_map (l : List (Edge × Int))
    (F : Nat × (Edge × Int) → Edge × Int) (hF : ∀ pr, (F pr).1 = pr.2.1) :
    keysOf (l.enum.map F) = keysOf l := by
  simp only [keysOf, List.map_map]
  have h1 : (Prod.fst ∘ F) = (fun pr : Nat × (Edge × Int) => pr.2.1) := funext hF
  have h2 : (fun pr : Nat × (Edge × Int) => pr.2.1) =
      (Prod.fst ∘ Prod.snd) := rfl
  rw [h1, h2, ← List.map_map, List.enum_map_snd]

/-- C6: with a non-empty candidate list, weight resampling succeeds, keeps
the key list (hence the edge set and its size) and the model and vertex
count intact, and every resulting weight is a member of the candidates. -/
theorem pluck_random_weights_frame (g : Graph) (draws : Nat → Nat)
    (cands : List Int) (hne : cands ≠ []) :
    ∃ g', g.pluck_random_weights draws cands = some g' ∧
      keysOf g'.list = keysOf g.list ∧
      g'.list.length = g.list.length ∧
      (∀ pr ∈ g'.list, pr.2 ∈ cands) ∧
      g'.model = g.model ∧ g'.n = g.n := by
  have hlen : ¬ (cands.length = 0) := by
    simpa [List.length_eq_zero] using hne
  simp only [Graph.pluck_random_weights, dif_neg hlen]
  refine ⟨_, rfl, ?_, ?_, ?_, rfl, rfl⟩
  · exact keysOf_enum_map g.list _ (fun _ => rfl)
  · simp
  · intro pr hpr
    simp only [List.mem_map] at hpr
    obtain ⟨q, _hq, hql⟩ := hpr
    rw [← hql]
    exact List.get_mem cands _ _

/-- Witness for C6: one-edge graph, candidate list `[5]`. -/
theorem pluck_random_weights_frame_witness :
    ∃ g', (⟨ErModel.new 2 1, 2, [(⟨⟨1⟩, ⟨2⟩⟩, (1 : Int))]⟩ : Graph).pluck_random_weights
        (fun _ => 0) [5] = some g' ∧
      keysOf g'.list =
        keysOf (⟨ErModel.new 2 1, 2, [(⟨⟨1⟩, ⟨2⟩⟩, (1 : Int))]⟩ : Graph).list ∧
      g'.list.length =
        (⟨ErModel.new 2 1, 2, [(⟨⟨1⟩, ⟨2⟩⟩, (1 : Int))]⟩ : Graph).list.length ∧
      (∀ pr ∈ g'.list, pr.2 ∈ ([5] : List Int)) ∧
      g'.model = (⟨ErModel.new 2 1, 2, [(⟨⟨1⟩, ⟨2⟩⟩, (1 : Int))]⟩ : Graph).model ∧
      g'.n = (⟨ErModel.new 2 1, 2, [(⟨⟨1⟩, ⟨2⟩⟩, (1 : Int))]⟩ : Graph).n :=
  pluck_random_weights_frame ⟨ErModel.new 2 1, 2, [(⟨⟨1⟩, ⟨2⟩⟩, (1 : Int))]⟩
    (fun _ => 0) [5] (by decide)

/-- C7: calling weight resampling with an empty candidate list fails
explicitly — `Uniform::new(0, 0)` gives up before any draw or any index into
the candidates — and no modified graph is ever produced. -/
theorem pluck_random_weights_empty (g : Graph) (draws : Nat → Nat) :
    g.pluck_random_weights draws [] = none := by
  simp [Graph.pluck_random_weights]

/-- C9: for fixed `n` and flags, `nb_edges_to_pick` is monotone in `p` on
`[0, 1]`, equals 0 at `p = 0` and equals `nb_possible_edges` at `p = 1`. -/
theorem nb_edges_to_pick_monotone (m : ErModel) (hn : 1 ≤ m.n) (p q : ℚ)
    (hp : 0 ≤ p) (hpq : p ≤ q) (hq : q ≤ 1) :
    (⟨m.n, p, m.digraph, m.self_loops⟩ : ErModel).nb_edges_to_pick ≤
      (⟨m.n, q, m.digraph, m.self_loops⟩ : ErModel).nb_edges_to_pick ∧
    (⟨m.n, 0, m.digraph, m.self_loops⟩ : ErModel).nb_edges_to_pick = 0 ∧
    (⟨m.n, 1, m.digraph, m.self_loops⟩ : ErModel).nb_edges_to_pick =
      m.nb_possible_edges := by
  have hposs : ∀ r : ℚ,
      (⟨m.n, r, m.digraph, m.self_loops⟩ : ErModel).nb_possible_edges =
        m.nb_possible_edges := fun _ => rfl
  have hc0 : (0 : ℚ) ≤ (m.nb_possible_edges : ℚ) := by positivity
  refine ⟨?_, ?_, ?_⟩
  · simp only [ErModel.nb_edges_to_pick, hposs]
    have h1 : p * (m.nb_possible_edges : ℚ) ≤ q * (m.nb_possible_edges : ℚ) :=
      mul_le_mul_of_nonneg_right hpq hc0
    have h0p : ¬ (p * (m.nb_possible_edges : ℚ) < 0) :=
      not_lt.mpr (mul_nonneg hp hc0)
    have h0q : ¬ (q * (m.nb_possible_edges : ℚ) < 0) :=
      not_lt.mpr (mul_nonneg (hp.trans hpq) hc0)
    simp only [f64round, if_neg h0p, if_neg h0q]
    exact Int.toNat_le_toNat (Int.floor_le_floor (by linarith))
  · simp only [ErModel.nb_edges_to_pick, hposs]
    norm_num [f64round]
  · simp only [ErModel.nb_edges_to_pick, hposs, one_mul, f64round]
    rw [if_neg (not_lt.mpr hc0)]
    have hfl : ⌊(m.nb_possible_edges : ℚ) + 1 / 2⌋ = (m.nb_possible_edges : ℤ) := by
      rw [Int.floor_eq_iff]
      constructor
      · push_cast; linarith
      · push_cast; linarith
    rw [hfl]
    simp

/-- Witness for C9 at `n = 2`, `p = 0`, `q = 1/2`. -/
theorem nb_edges_to_pick_monotone_witness :
    (⟨(ErModel.new 2 1).n, 0, (ErModel.new 2 1).digraph,
        (ErModel.new 2 1).self_loops⟩ : ErModel).nb_edges_to_pick ≤
      (⟨(ErModel.new 2 1).n, 1 / 2, (ErModel.new 2 1).digraph,
        (ErModel.new 2 1).self_loops⟩ : ErModel).nb_edges_to_pick ∧
    (⟨(ErModel.new 2 1).n, 0, (ErModel.new 2 1).digraph,
        (ErModel.new 2 1).self_loops⟩ : ErModel).nb_edges_to_pick = 0 ∧
    (⟨(ErModel.new 2 1).n, 1, (ErModel.new 2 1).digraph,
        (ErModel.new 2 1).self_loops⟩ : ErModel).nb_edges_to_pick =
      (ErModel.new 2 1).nb_possible_edges :=
  nb_edges_to_pick_monotone (ErModel.new 2 1) (by decide) 0 (1 / 2)
    (by norm_num) (by norm_num) (by norm_num)
